import Mathlib

/-!
Verification of the python-redis-cache library (src/redis_cache/__init__.py).

The development shallowly embeds the library's core:
  - the value universe handled by the default JSON serializer (PyVal),
  - the argument normalizer get_args,
  - the key codec CacheDecorator.get_key (compact JSON, UTF-8, base64),
  - the atomic store-and-evict Lua script registered by get_cache_lua_fn,
  - the decorated call path (CacheDecorator.__call__'s inner) and RedisCache.mget.

Redis is modelled as a state holding a string keyspace (key -> value plus an
optional expiry recorded at write time) and a sorted-set keyspace
(key -> ordered member/score list).  Machine-level concerns that the claims do
not touch (byte-level redis protocol, clock progression that expires TTLs,
concurrency interleavings) are outside the model; the Lua script is atomic in
the source, so one execution is one step here.
-/

/-- Universe of values the default serializer (json.dumps) handles.
Python floats are omitted: no claim mentions them and their textual encoding
is float-formatting, which this development does not model. -/
inductive PyVal where
  | pnull
  | pbool (b : Bool)
  | pint (n : Int)
  | pstr (s : String)
  | plist (xs : List PyVal)
  | pdict (xs : List (String × PyVal))
deriving Repr

/-- Hexadecimal digit, lowercase, as produced by python's \uXXXX escapes. -/
def hexDigit (n : Nat) : Char := "0123456789abcdef".data.getD n '0'

/-- Four-digit lowercase hex, as in python's json \uXXXX escape. -/
def hex4 (n : Nat) : String :=
  String.mk [hexDigit (n / 4096 % 16), hexDigit (n / 256 % 16),
             hexDigit (n / 16 % 16), hexDigit (n % 16)]

/-- Escape of one character exactly as json.dumps (ensure_ascii=True) does:
printable ASCII other than quote and backslash is kept, the two-character
shorthands are used for the usual control characters, everything else becomes
\uXXXX (with a surrogate pair above the BMP). -/
def escapeChar (c : Char) : String :=
  if c = '\"' then "\\\""
  else if c = '\\' then "\\\\"
  else if c = '\n' then "\\n"
  else if c = '\t' then "\\t"
  else if c = '\r' then "\\r"
  else if c = Char.ofNat 8 then "\\b"
  else if c = Char.ofNat 12 then "\\f"
  else if 0x20 ≤ c.toNat ∧ c.toNat ≤ 0x7e then String.mk [c]
  else if c.toNat < 0x10000 then "\\u" ++ hex4 c.toNat
  else
    "\\u" ++ hex4 (0xD800 + (c.toNat - 0x10000) / 1024) ++
    "\\u" ++ hex4 (0xDC00 + (c.toNat - 0x10000) % 1024)

/-- JSON string-body escaping (applied between the double quotes). -/
def jsonEscape (s : String) : String := String.join (s.data.map escapeChar)

mutual

/-- json.dumps(value, separators=(',', ':')) — the library's compact_dump:
compact JSON, object keys in dict insertion order (python dicts are ordered). -/
def compact_dump : PyVal → String
  | .pnull => "null"
  | .pbool b => cond b "true" "false"
  | .pint n => toString n
  | .pstr s => "\"" ++ jsonEscape s ++ "\""
  | .plist xs => "[" ++ dumpElems xs ++ "]"
  | .pdict xs => "\x7b" ++ dumpEntries xs ++ "\x7d"

/-- Comma-separated JSON array elements. -/
def dumpElems : List PyVal → String
  | [] => ""
  | [x] => compact_dump x
  | x :: y :: rest => compact_dump x ++ "," ++ dumpElems (y :: rest)

/-- Comma-separated JSON object entries, in list (= insertion) order. -/
def dumpEntries : List (String × PyVal) → String
  | [] => ""
  | [(k, v)] => "\"" ++ jsonEscape k ++ "\":" ++ compact_dump v
  | (k, v) :: e :: rest =>
      "\"" ++ jsonEscape k ++ "\":" ++ compact_dump v ++ "," ++ dumpEntries (e :: rest)

end

/-- UTF-8 encoding of one unicode scalar value, as str.encode('utf-8'). -/
def utf8Char (c : Char) : List Nat :=
  let n := c.toNat
  if n < 0x80 then [n]
  else if n < 0x800 then [0xC0 + n / 64, 0x80 + n % 64]
  else if n < 0x10000 then [0xE0 + n / 4096, 0x80 + n / 64 % 64, 0x80 + n % 64]
  else [0xF0 + n / 262144, 0x80 + n / 4096 % 64, 0x80 + n / 64 % 64, 0x80 + n % 64]

/-- UTF-8 encoding of a string as a byte list. -/
def utf8Encode (s : String) : List Nat := (s.data.map utf8Char).flatten

/-- The standard base64 alphabet used by base64.b64encode. -/
def b64Alphabet : List Char :=
  "ABCDEFGHIJKLMNOPQRSTUVWXYZabcdefghijklmnopqrstuvwxyz0123456789+/".data

/-- Index into the base64 alphabet. -/
def b64Char (n : Nat) : Char := b64Alphabet.getD n 'A'

/-- base64.b64encode on a byte list: 3 bytes become 4 alphabet characters,
with '=' padding for a 1- or 2-byte tail. -/
def b64encodeBytes : List Nat → List Char
  | [] => []
  | [a] => [b64Char (a / 4), b64Char (a % 4 * 16), '=', '=']
  | [a, b] => [b64Char (a / 4), b64Char (a % 4 * 16 + b / 16), b64Char (b % 16 * 4), '=']
  | a :: b :: c :: rest =>
      b64Char (a / 4) :: b64Char (a % 4 * 16 + b / 16) ::
      b64Char (b % 16 * 4 + c / 64) :: b64Char (c % 64) :: b64encodeBytes rest

/-- base64.b64encode followed by .decode('utf-8') (the alphabet is ASCII). -/
def b64encode (bs : List Nat) : String := String.mk (b64encodeBytes bs)

/-- Ordered association-list update with python-dict semantics: an existing
key keeps its position and gets the new value, a new key is appended. -/
def aset {β : Type} : List (String × β) → String → β → List (String × β)
  | [], k, v => [(k, v)]
  | p :: rest, k, v => if p.1 = k then (k, v) :: rest else p :: aset rest k v

/-- Association-list lookup (first binding wins). -/
def alookup {β : Type} : List (String × β) → String → Option β
  | [], _ => none
  | p :: rest, k => if p.1 = k then some p.2 else alookup rest k

/-- Association-list deletion of every binding of a key. -/
def adel {β : Type} : List (String × β) → String → List (String × β)
  | [], _ => []
  | p :: rest, k => if p.1 = k then adel rest k else p :: adel rest k

/-- Static parameter signature of a wrapped function, as inspect.signature
exposes it: POSITIONAL_OR_KEYWORD names in declaration order, KEYWORD_ONLY
names, the optional VAR_POSITIONAL collector and the optional VAR_KEYWORD
collector (python allows at most one of each). -/
structure PySignature where
  standard : List String
  kwonly : List String
  varargs : Option String
  varkw : Option String
deriving Repr, DecidableEq

/-- The source's allowed_kwargs set: POSITIONAL_OR_KEYWORD plus KEYWORD_ONLY. -/
def allowedKwargs (sig : PySignature) : List String := sig.standard ++ sig.kwonly

/-- parsed_args[vargs_name] handling of one positional overflow value:
create the list on first use, then append (list positions follow python
dict/list mutation). Reachable states only ever store a plist here. -/
def appendVararg (d : List (String × PyVal)) (vn : String) (a : PyVal) :
    List (String × PyVal) :=
  match alookup d vn with
  | some (.plist xs) => aset d vn (.plist (xs ++ [a]))
  | some _ => d
  | none => aset d vn (.plist [a])

/-- parsed_args[vkwargs_name][key] = value handling of one unmatched named
value: create the dict on first use, then insert. Reachable states only ever
store a pdict here. -/
def appendVarkw (d : List (String × PyVal)) (vn k : String) (v : PyVal) :
    List (String × PyVal) :=
  match alookup d vn with
  | some (.pdict m) => aset d vn (.pdict (aset m k v))
  | some _ => d
  | none => aset d vn (.pdict [(k, v)])

/-- The positional loop of get_args: standard_args[index] when it exists,
otherwise the VAR_POSITIONAL fallback, otherwise the value is dropped
(the source's silent-discard edge case). -/
def processPositional (sig : PySignature) :
    List (String × PyVal) → Nat → List PyVal → List (String × PyVal)
  | d, _, [] => d
  | d, i, a :: rest =>
      match sig.standard[i]? with
      | some name => processPositional sig (aset d name a) (i + 1) rest
      | none =>
          match sig.varargs with
          | some vn => processPositional sig (appendVararg d vn a) (i + 1) rest
          | none => processPositional sig d (i + 1) rest

/-- The kwargs loop of get_args: allowed names bind directly (overwriting any
positional binding), others go to the VAR_KEYWORD collector or are dropped. -/
def processKwargs (sig : PySignature) :
    List (String × PyVal) → List (String × PyVal) → List (String × PyVal)
  | d, [] => d
  | d, (k, v) :: rest =>
      if k ∈ allowedKwargs sig then processKwargs sig (aset d k v) rest
      else
        match sig.varkw with
        | some vn => processKwargs sig (appendVarkw d vn k v) rest
        | none => processKwargs sig d rest

/-- get_args(fn, args, kwargs): the argument normalizer.  kwargs is the
ordered name/value list of the call site (python keeps keyword order);
python guarantees its names are pairwise distinct. -/
def get_args (sig : PySignature) (args : List PyVal)
    (kwargs : List (String × PyVal)) : List (String × PyVal) :=
  let parsed_args : List (String × PyVal) :=
    if sig.standard.isEmpty && sig.varargs.isNone then []
    else processPositional sig [] 0 args
  if kwargs.isEmpty then parsed_args else processKwargs sig parsed_args kwargs

/-- A stored string entry: the written payload together with the expiry
requested at write time (SETEX ttl, or none for a plain SET). -/
structure StoredVal where
  payload : String
  expiry : Option Int
deriving Repr, DecidableEq

/-- One member of a redis sorted set: member string and its score.  The score
is the server timestamp the Lua script passes to ZADD; it is modelled as a
Nat since only its ordering matters. -/
abbrev ZSet := List (String × Nat)

/-- The redis keyspaces the library touches: string entries and sorted sets.
(In redis both live in one keyspace under distinct types; no claim exercises
a name collision between a cache entry and an index key.) -/
structure RedisState where
  store : List (String × StoredVal)
  zsets : List (String × ZSet)
deriving Repr, DecidableEq

/-- A redis server with no relevant keys. -/
def emptyState : RedisState := ⟨[], []⟩

/-- GET key, as the decorated call path uses it (payload only). -/
def redisGet (st : RedisState) (k : String) : Option String :=
  (alookup st.store k).map StoredVal.payload

/-- The sorted set stored at a key (ZADD on a missing key starts empty). -/
def getZ (st : RedisState) (k : String) : ZSet := (alookup st.zsets k).getD []

/-- ZADD key score member: update the member's score if present, else add. -/
def zadd (z : ZSet) (member : String) (score : Nat) : ZSet := aset z member score

/-- Redis sorted-set ordering: by score, ties broken by lexicographic member
order. -/
def zLtb (p q : String × Nat) : Bool :=
  p.2 < q.2 || (p.2 == q.2 && p.1 < q.1)

/-- Least element of a sorted set under the score/member order. -/
def zmin : ZSet → Option (String × Nat)
  | [] => none
  | p :: rest =>
      match zmin rest with
      | none => some p
      | some q => if zLtb q p then some q else some p

/-- Remove the first occurrence of a member/score pair. -/
def removeFirstZ : ZSet → (String × Nat) → ZSet
  | [], _ => []
  | p :: rest, q => if p = q then rest else p :: removeFirstZ rest q

/-- ZPOPMIN key n: pop the n lowest-scored members, returning the popped
members (in pop order) and the remaining set. -/
def zpopmin : ZSet → Nat → List String × ZSet
  | z, 0 => ([], z)
  | z, n + 1 =>
      match zmin z with
      | none => ([], z)
      | some m =>
          let r := zpopmin (removeFirstZ z m) n
          (m.1 :: r.1, r.2)

/-- ZREM key members...: remove the listed members. -/
def zremAll (z : ZSet) (members : List String) : ZSet :=
  z.filter (fun p => !(members.contains p.1))

/-- DEL key...: delete each listed key from the string keyspace. -/
def delKeys (s : List (String × StoredVal)) (ks : List String) :
    List (String × StoredVal) :=
  ks.foldl (fun acc k => adel acc k) s

/-- Step (1) of the Lua script: SETEX entry_key ttl value when ttl > 0, else
SET entry_key value. -/
def luaWrite (entry_key serialized_value : String) (ttl : Int)
    (s : List (String × StoredVal)) : List (String × StoredVal) :=
  if ttl > 0 then aset s entry_key ⟨serialized_value, some ttl⟩
  else aset s entry_key ⟨serialized_value, none⟩

/-- The Lua script registered by get_cache_lua_fn, with
KEYS = [entry_key, keys_key] and ARGV = [serialized_value, ttl, limit]:
write the value (SETEX/SET); if limit > 0, ZADD the entry key at the current
server time, ZCOUNT the index, and when the count exceeds the limit ZPOPMIN
the excess, ZREM them and DEL their entries.  The script runs atomically in
redis, so it is one state transition here; the TIME call is the time
argument. -/
def cacheLua (entry_key keys_key serialized_value : String) (ttl limit : Int)
    (time : Nat) (st : RedisState) : RedisState :=
  let store1 := luaWrite entry_key serialized_value ttl st.store
  if limit > 0 then
    let z1 := zadd (getZ st keys_key) entry_key time
    let count : Int := z1.length
    let over := count - limit
    if over > 0 then
      let popped := zpopmin z1 over.toNat
      let z2 := zremAll popped.2 popped.1
      let store2 := delKeys store1 popped.1
      ⟨store2, aset st.zsets keys_key z2⟩
    else ⟨store1, aset st.zsets keys_key z1⟩
  else ⟨store1, st.zsets⟩

/-- The per-function decorator state (CacheDecorator after __call__ wired the
wrapped function): key prefix, namespace, serializers, ttl/limit settings,
the fallback-exception predicate and the wrapped function's behavior.
Serializers are modelled as string-producing (the source utf-8-encodes a str
result before base64); the deserializer consumes the stored payload. -/
structure CacheDecorator where
  pfx : String
  nspace : String
  serializer : PyVal → String
  key_serializer : Option (PyVal → String)
  deserializer : String → PyVal
  ttl : Int
  limit : Int
  fallback_exceptions : String → Bool
  original_fn : List PyVal → List (String × PyVal) → PyVal
  sig : PySignature

/-- get_full_prefix: the hash-tag wrapper around prefix:namespace. -/
def CacheDecorator.full_pfx (d : CacheDecorator) : String :=
  "\x7b" ++ d.pfx ++ ":" ++ d.nspace ++ "\x7d"

/-- self.keys_key, the namespace eviction-index key. -/
def CacheDecorator.keys_key (d : CacheDecorator) : String :=
  CacheDecorator.full_pfx d ++ ":keys"

/-- get_key: normalize the call, serialize the normalized map with the key
serializer (falling back to the value serializer), utf-8 encode, base64
encode, and wrap with the full prefix. -/
def CacheDecorator.get_key (d : CacheDecorator) (args : List PyVal)
    (kwargs : List (String × PyVal)) : String :=
  let normalized_args := get_args d.sig args kwargs
  let serialized_data :=
    match d.key_serializer with
    | some ks => ks (.pdict normalized_args)
    | none => d.serializer (.pdict normalized_args)
  CacheDecorator.full_pfx d ++ ":" ++ b64encode (utf8Encode serialized_data)

/-- Outcome of the client.get transport: a successful round trip (the value
read is then the one in the modelled state) or a raised exception kind. -/
inductive ReadOutcome where
  | success
  | raise (kind : String)

/-- The decorated call (the inner closure built by CacheDecorator.__call__):
derive the key; GET it, degrading to a direct call when the exception kind is
in fallback_exceptions; on a falsy read (absent key or empty payload — the
source tests "if not result") compute, serialize and run the Lua
store-and-evict; otherwise deserialize the payload.  Errors outside the
fallback set propagate. -/
def innerCall (d : CacheDecorator) (outcome : ReadOutcome) (args : List PyVal)
    (kwargs : List (String × PyVal)) (time : Nat) (st : RedisState) :
    Except String (PyVal × RedisState) :=
  let key := CacheDecorator.get_key d args kwargs
  match outcome with
  | .raise kind =>
      if d.fallback_exceptions kind then .ok (d.original_fn args kwargs, st)
      else .error kind
  | .success =>
      match redisGet st key with
      | some s =>
          if s = "" then
            let result := d.original_fn args kwargs
            let result_serialized := d.serializer result
            .ok (result, cacheLua key (CacheDecorator.keys_key d)
                   result_serialized d.ttl d.limit time st)
          else .ok (d.deserializer s, st)
      | none =>
          let result := d.original_fn args kwargs
          let result_serialized := d.serializer result
          .ok (result, cacheLua key (CacheDecorator.keys_key d)
                 result_serialized d.ttl d.limit time st)

/-- The RedisCache facade fields mget uses (its serializer/deserializer, not
the per-decorator ones). -/
structure RedisCache where
  serializer : PyVal → String
  deserializer : String → PyVal

/-- One element of mget's fns_with_args: the wrapped function's decorator
instance plus the call's args and kwargs (absent entries default to empty). -/
structure MgetReq where
  inst : CacheDecorator
  args : List PyVal
  kwargs : List (String × PyVal)

/-- One store-and-evict execution queued on the pipeline by mget. -/
structure WriteCmd where
  entry_key : String
  keys_key : String
  payload : String
  ttl : Int
  limit : Int

/-- The result-assembly loop of mget over (request, read) pairs: a None read
is a miss — call original_fn, serialize with the facade serializer and queue
the Lua write — and any present payload (mget tests "result is None", not
falsiness) is deserialized in place. -/
def mgetLoop (rc : RedisCache) : List (MgetReq × Option String) →
    List PyVal × List WriteCmd
  | [] => ([], [])
  | (req, read) :: rest =>
      let r := mgetLoop rc rest
      match read with
      | none =>
          let result := req.inst.original_fn req.args req.kwargs
          let w : WriteCmd :=
            ⟨CacheDecorator.get_key req.inst req.args req.kwargs,
             CacheDecorator.keys_key req.inst,
             rc.serializer result, req.inst.ttl, req.inst.limit⟩
          (result :: r.1, w :: r.2)
      | some s => (rc.deserializer s :: r.1, r.2)

/-- RedisCache.mget: derive every key, read them in one MGET round trip, then
assemble results in request order, queueing a pipelined store-and-evict for
each miss.  Returns the ordered results and the queued writes (the source
then executes the pipeline only when at least one write was queued). -/
def RedisCache.mget (rc : RedisCache) (st : RedisState) (reqs : List MgetReq) :
    List PyVal × List WriteCmd :=
  let keys := reqs.map (fun r => CacheDecorator.get_key r.inst r.args r.kwargs)
  let reads := keys.map (fun k => redisGet st k)
  mgetLoop rc (reqs.zip reads)

/-- pipeline.execute() after mget: run each queued store-and-evict in order;
each scripted call reads the server TIME, supplied here per write. -/
def pipelineExecute (st : RedisState) (ws : List WriteCmd) (times : List Nat) :
    RedisState :=
  (ws.zip times).foldl
    (fun s (p : WriteCmd × Nat) =>
      cacheLua p.1.entry_key p.1.keys_key p.1.payload p.1.ttl p.1.limit p.2 s)
    st

/-! ### Association-list lemmas -/

theorem alookup_aset_self {β : Type} (l : List (String × β)) (k : String) (v : β) :
    alookup (aset l k v) k = some v := by
  induction l with
  | nil => simp [aset, alookup]
  | cons p rest ih =>
    by_cases h : p.1 = k
    · simp [aset, alookup, h]
    · simp [aset, alookup, h, ih]

theorem alookup_aset_ne {β : Type} (l : List (String × β)) (k k' : String) (v : β)
    (h : k' ≠ k) : alookup (aset l k v) k' = alookup l k' := by
  induction l with
  | nil => simp [aset, alookup, Ne.symm h]
  | cons p rest ih =>
    by_cases hp : p.1 = k
    · simp [aset, alookup, hp, Ne.symm h]
    · simp only [aset, if_neg hp, alookup]
      by_cases hp' : p.1 = k' <;> simp [hp', ih]

theorem keys_aset {β : Type} (l : List (String × β)) (k : String) (v : β) :
    (aset l k v).map Prod.fst =
      if k ∈ l.map Prod.fst then l.map Prod.fst else l.map Prod.fst ++ [k] := by
  induction l with
  | nil => simp [aset]
  | cons p rest ih =>
    by_cases h : p.1 = k
    · simp [aset, h]
    · simp only [aset, if_neg h, List.map_cons, ih]
      by_cases hm : k ∈ rest.map Prod.fst <;> simp [hm, Ne.symm h]

theorem mem_aset {β : Type} (l : List (String × β)) (k : String) (v : β)
    (p : String × β) (hp : p ∈ aset l k v) : p = (k, v) ∨ p ∈ l := by
  induction l with
  | nil => simpa [aset] using hp
  | cons q rest ih =>
    by_cases h : q.1 = k
    · simp only [aset, if_pos h, List.mem_cons] at hp
      rcases hp with h1 | h2
      · exact Or.inl h1
      · exact Or.inr (List.mem_cons_of_mem _ h2)
    · simp only [aset, if_neg h, List.mem_cons] at hp
      rcases hp with h1 | h2
      · exact Or.inr (h1 ▸ List.mem_cons_self _ _)
      · rcases ih h2 with h3 | h4
        · exact Or.inl h3
        · exact Or.inr (List.mem_cons_of_mem _ h4)

theorem alookup_adel_ne {β : Type} (l : List (String × β)) (k k' : String)
    (h : k' ≠ k) : alookup (adel l k) k' = alookup l k' := by
  induction l with
  | nil => simp [adel]
  | cons p rest ih =>
    by_cases hp : p.1 = k
    · simp [adel, alookup, hp, Ne.symm h, ih]
    · by_cases hp' : p.1 = k' <;> simp [adel, alookup, hp, hp', h, ih]

theorem alookup_delKeys_not_mem (s : List (String × StoredVal)) (ks : List String)
    (k : String) (h : k ∉ ks) : alookup (delKeys s ks) k = alookup s k := by
  induction ks generalizing s with
  | nil => simp [delKeys]
  | cons a rest ih =>
    have hka : k ≠ a := fun hh => h (hh ▸ List.mem_cons_self _ _)
    have hkr : k ∉ rest := fun hh => h (List.mem_cons_of_mem _ hh)
    show alookup (delKeys (adel s a) rest) k = alookup s k
    rw [ih (adel s a) hkr, alookup_adel_ne s a k hka]

/-! ### get_args: guard elimination and normal form -/

theorem processPositional_empty (sig : PySignature) (hstd : sig.standard = [])
    (hv : sig.varargs = none) (d : List (String × PyVal)) (i : Nat)
    (args : List PyVal) : processPositional sig d i args = d := by
  induction args generalizing i with
  | nil => rfl
  | cons a rest ih =>
    simp only [processPositional, hstd, hv, List.getElem?_nil]
    exact ih (i + 1)

theorem get_args_eq (sig : PySignature) (args : List PyVal)
    (kwargs : List (String × PyVal)) :
    get_args sig args kwargs =
      processKwargs sig (processPositional sig [] 0 args) kwargs := by
  unfold get_args
  by_cases hg : sig.standard.isEmpty && sig.varargs.isNone
  · rw [if_pos hg]
    simp only [Bool.and_eq_true, List.isEmpty_iff, Option.isNone_iff_eq_none] at hg
    rw [processPositional_empty sig hg.1 hg.2]
    cases kwargs <;> simp [processKwargs]
  · rw [if_neg hg]
    cases kwargs <;> simp [processKwargs]

/-! ### C1: positional/named key identity -/

theorem processPositional_foldl (sig : PySignature) (args : List PyVal) :
    ∀ (i : Nat) (d : List (String × PyVal)),
      i + args.length ≤ sig.standard.length →
      processPositional sig d i args =
        ((sig.standard.drop i).zip args).foldl (fun d p => aset d p.1 p.2) d := by
  induction args with
  | nil => intro i d _; simp [processPositional]
  | cons a rest ih =>
    intro i d h
    have hi : i < sig.standard.length := by
      simp only [List.length_cons] at h; omega
    have hget : sig.standard[i]? = some sig.standard[i] :=
      List.getElem?_eq_getElem hi
    have hdrop : sig.standard.drop i = sig.standard[i] :: sig.standard.drop (i + 1) :=
      List.drop_eq_getElem_cons hi
    simp only [processPositional, hget]
    rw [hdrop]
    simp only [List.zip_cons_cons, List.foldl_cons]
    exact ih (i + 1) (aset d sig.standard[i] a)
      (by simp only [List.length_cons] at h; omega)

theorem processKwargs_foldl (sig : PySignature) (kw : List (String × PyVal)) :
    ∀ d : List (String × PyVal), (∀ p ∈ kw, p.1 ∈ allowedKwargs sig) →
      processKwargs sig d kw = kw.foldl (fun d p => aset d p.1 p.2) d := by
  induction kw with
  | nil => intro d _; rfl
  | cons p rest ih =>
    intro d h
    obtain ⟨k, v⟩ := p
    have hk : k ∈ allowedKwargs sig := h (k, v) (List.mem_cons_self _ _)
    simp only [processKwargs, if_pos hk, List.foldl_cons]
    exact ih _ (fun q hq => h q (List.mem_cons_of_mem _ hq))

/-- C1 (amended): a positional call and the equivalent named call produce the
same normalized argument map — and hence the same cache key — when the named
call supplies its name/value pairs in the signature's declaration order.  (As
stated over every equivalent named call the claim fails: the normalizer keeps
kwargs insertion order, see the counterexample.) -/
theorem get_args_positional_named_declaration_order (d : CacheDecorator)
    (args : List PyVal) (h : args.length ≤ d.sig.standard.length) :
    get_args d.sig args [] = get_args d.sig [] (d.sig.standard.zip args) ∧
    CacheDecorator.get_key d args [] =
      CacheDecorator.get_key d [] (d.sig.standard.zip args) := by
  have hmaps : get_args d.sig args [] = get_args d.sig [] (d.sig.standard.zip args) := by
    rw [get_args_eq, get_args_eq]
    have hpos :
        processPositional d.sig [] 0 args =
          ((d.sig.standard.drop 0).zip args).foldl (fun d p => aset d p.1 p.2) [] :=
      processPositional_foldl d.sig args 0 [] (by simpa using h)
    have hkw :
        processKwargs d.sig (processPositional d.sig [] 0 [])
            (d.sig.standard.zip args) =
          (d.sig.standard.zip args).foldl (fun d p => aset d p.1 p.2) [] := by
      have : processPositional d.sig [] 0 [] = [] := rfl
      rw [this]
      refine processKwargs_foldl d.sig (d.sig.standard.zip args) [] ?_
      intro p hp
      have hmem := List.of_mem_zip hp
      simp only [allowedKwargs, List.mem_append]
      exact Or.inl hmem.1
    have hnil : processKwargs d.sig (processPositional d.sig [] 0 args) [] =
        processPositional d.sig [] 0 args := rfl
    rw [hnil, hkw, hpos, List.drop_zero]
  refine ⟨hmaps, ?_⟩
  simp only [CacheDecorator.get_key, hmaps]

/-- The signature of add(a, b), for the C1 counterexample. -/
def sigAB : PySignature := ⟨["a", "b"], [], none, none⟩

/-- A decorator over add(a, b) with the library defaults (compact_dump key
payload, prefix "rc"), for the C1 counterexample. -/
def decAB : CacheDecorator :=
  ⟨"rc", "ns", compact_dump, none, fun _ => .pnull, 0, 0, fun _ => false,
   fun _ _ => .pnull, sigAB⟩

/-- C1 is false as stated: add(1, 2) and add(b=2, a=1) assign the same values
to the same parameters, yet the normalizer emits differently-ordered maps
(kwargs insertion order is kept), so the default key codec emits different
store keys and the calls cannot cache-hit each other. -/
theorem get_args_positional_named_order_counterexample :
    get_args sigAB [.pint 1, .pint 2] [] ≠
      get_args sigAB [] [("b", .pint 2), ("a", .pint 1)] ∧
    CacheDecorator.get_key decAB [.pint 1, .pint 2] [] ≠
      CacheDecorator.get_key decAB [] [("b", .pint 2), ("a", .pint 1)] := by
  constructor
  · intro h
    exact absurd (congrArg (List.map Prod.fst) h) (by decide)
  · decide

/-- The signature and decorator for the C1 witness (same shape, distinct
declarations so each claim's artifacts are self-contained). -/
def decAddW : CacheDecorator :=
  ⟨"rc", "ns", compact_dump, none, fun _ => .pnull, 0, 0, fun _ => false,
   fun _ _ => .pnull, ⟨["a", "b"], [], none, none⟩⟩

/-- Witness for the amended C1 at add(1, 2) versus add(a=1, b=2). -/
theorem get_args_positional_named_declaration_order_witness :
    ([PyVal.pint 1, PyVal.pint 2].length ≤ decAddW.sig.standard.length) ∧
    (get_args decAddW.sig [.pint 1, .pint 2] [] =
       get_args decAddW.sig []
         (decAddW.sig.standard.zip [.pint 1, .pint 2]) ∧
     CacheDecorator.get_key decAddW [.pint 1, .pint 2] [] =
       CacheDecorator.get_key decAddW []
         (decAddW.sig.standard.zip [.pint 1, .pint 2])) :=
  ⟨by decide,
   get_args_positional_named_declaration_order decAddW [.pint 1, .pint 2] (by decide)⟩

/-! ### C9: a named value overwrites a positional binding -/

theorem alookup_appendVarkw_ne (d : List (String × PyVal)) (vn k : String)
    (v : PyVal) (name : String) (h : name ≠ vn) :
    alookup (appendVarkw d vn k v) name = alookup d name := by
  unfold appendVarkw
  cases hl : alookup d vn with
  | none => exact alookup_aset_ne d vn name _ h
  | some pv =>
    cases pv with
    | pdict m => exact alookup_aset_ne d vn name _ h
    | pnull => rfl
    | pbool b => rfl
    | pint n => rfl
    | pstr s => rfl
    | plist xs => rfl

theorem processKwargs_lookup_named (sig : PySignature)
    (kw : List (String × PyVal)) (name : String) (v : PyVal)
    (hallow : name ∈ allowedKwargs sig) (hvk : sig.varkw ≠ some name) :
    ∀ d : List (String × PyVal), (∀ p ∈ kw, p.1 = name → p.2 = v) →
      (alookup d name = some v ∨ (name, v) ∈ kw) →
      alookup (processKwargs sig d kw) name = some v := by
  induction kw with
  | nil =>
    intro d _ hd
    rcases hd with h1 | h2
    · exact h1
    · cases h2
  | cons p rest ih =>
    intro d huniq hd
    obtain ⟨k, w⟩ := p
    by_cases hk : k = name
    · subst hk
      have hw : w = v := huniq (k, w) (List.mem_cons_self _ _) rfl
      subst hw
      simp only [processKwargs, if_pos hallow]
      exact ih _ (fun q hq h1 => huniq q (List.mem_cons_of_mem _ hq) h1)
        (Or.inl (alookup_aset_self d k w))
    · have hname : name ≠ k := Ne.symm hk
      have hd' : alookup d name = some v ∨ (name, v) ∈ rest := by
        rcases hd with h1 | h2
        · exact Or.inl h1
        · rcases List.mem_cons.mp h2 with h3 | h4
          · exact absurd (congrArg Prod.fst h3).symm hk
          · exact Or.inr h4
      have huniq' : ∀ q ∈ rest, q.1 = name → q.2 = v :=
        fun q hq h1 => huniq q (List.mem_cons_of_mem _ hq) h1
      by_cases ha : k ∈ allowedKwargs sig
      · simp only [processKwargs, if_pos ha]
        refine ih _ huniq' ?_
        rcases hd' with h1 | h2
        · exact Or.inl ((alookup_aset_ne d k name w hname).trans h1)
        · exact Or.inr h2
      · simp only [processKwargs, if_neg ha]
        cases hvko : sig.varkw with
        | none => exact ih _ huniq' hd'
        | some vn =>
          have hvn : name ≠ vn := by
            intro hh
            exact hvk (by rw [hvko, hh])
          refine ih _ huniq' ?_
          rcases hd' with h1 | h2
          · exact Or.inl ((alookup_appendVarkw_ne d vn k w name hvn).trans h1)
          · exact Or.inr h2

/-- C9: when one ordinary (or keyword-only) parameter receives both a
positional value and a named value, the normalizer's result binds the named
value: all positional values are applied first, then every named value
overwrites any earlier binding of the same name.  The two side conditions are
python guarantees: a call's keyword names are pairwise distinct, and the
VAR_KEYWORD collector cannot share its name with another parameter. -/
theorem named_value_overwrites_positional (sig : PySignature)
    (args : List PyVal) (kwargs : List (String × PyVal)) (name : String)
    (v : PyVal) (hmem : (name, v) ∈ kwargs)
    (huniq : ∀ p ∈ kwargs, p.1 = name → p.2 = v)
    (hallow : name ∈ allowedKwargs sig) (hvk : sig.varkw ≠ some name) :
    alookup (get_args sig args kwargs) name = some v := by
  rw [get_args_eq]
  exact processKwargs_lookup_named sig kwargs name v hallow hvk _ huniq
    (Or.inr hmem)

/-- The signature of f(a), for the C9 witness. -/
def sigC9w : PySignature := ⟨["a"], [], none, none⟩

/-- Witness for C9: get_args(f, (1,), dict(a=2)) binds a to 2, overwriting
the positional 1. -/
theorem named_value_overwrites_positional_witness :
    ("a" ∈ allowedKwargs sigC9w) ∧ (sigC9w.varkw ≠ some "a") ∧
    alookup (get_args sigC9w [.pint 1] [("a", .pint 2)]) "a" =
      some (.pint 2) :=
  ⟨by decide, by decide,
   named_value_overwrites_positional sigC9w [.pint 1] [("a", .pint 2)] "a"
     (.pint 2) (List.mem_cons_self _ _) (by simp) (by decide) (by decide)⟩

/-! ### C4: key codec format and brace freedom -/

theorem b64Char_mem (n : Nat) : b64Char n ∈ b64Alphabet := by
  rw [b64Char, List.getD_eq_getElem?_getD]
  cases h : b64Alphabet[n]? with
  | none => simp only [Option.getD_none]; decide
  | some c => simpa using List.getElem?_mem h

theorem b64encodeBytes_chars (bs : List Nat) :
    ∀ c ∈ b64encodeBytes bs, c ∈ b64Alphabet ∨ c = '=' := by
  induction bs using b64encodeBytes.induct with
  | case1 =>
    intro c hc
    simp [b64encodeBytes] at hc
  | case2 a =>
    intro c hc
    simp only [b64encodeBytes, List.mem_cons, List.not_mem_nil, or_false] at hc
    rcases hc with rfl | rfl | rfl | rfl
    · exact Or.inl (b64Char_mem _)
    · exact Or.inl (b64Char_mem _)
    · exact Or.inr rfl
    · exact Or.inr rfl
  | case3 a b =>
    intro c hc
    simp only [b64encodeBytes, List.mem_cons, List.not_mem_nil, or_false] at hc
    rcases hc with rfl | rfl | rfl | rfl
    · exact Or.inl (b64Char_mem _)
    · exact Or.inl (b64Char_mem _)
    · exact Or.inl (b64Char_mem _)
    · exact Or.inr rfl
  | case4 a b c rest ih =>
    intro x hx
    simp only [b64encodeBytes, List.mem_cons] at hx
    rcases hx with rfl | rfl | rfl | rfl | hx
    · exact Or.inl (b64Char_mem _)
    · exact Or.inl (b64Char_mem _)
    · exact Or.inl (b64Char_mem _)
    · exact Or.inl (b64Char_mem _)
    · exact ih x hx

/-- The byte payload get_key base64-encodes: the normalized argument map
serialized by the key serializer when one is configured, else by the value
serializer. -/
def keyPayload (d : CacheDecorator) (args : List PyVal)
    (kwargs : List (String × PyVal)) : String :=
  match d.key_serializer with
  | some ks => ks (.pdict (get_args d.sig args kwargs))
  | none => d.serializer (.pdict (get_args d.sig args kwargs))

/-- C4: for every prefix, namespace and call, the key codec's output is the
hash-tag wrapper around prefix:namespace, a colon, and the base64 encoding of
the UTF-8-encoded serialized normalized map — and that base64 tail contains
no curly brace, so the only braces are the mandated wrapper's. -/
theorem get_key_format_no_braces (d : CacheDecorator) (args : List PyVal)
    (kwargs : List (String × PyVal)) :
    CacheDecorator.get_key d args kwargs =
      CacheDecorator.full_pfx d ++ ":" ++
        b64encode (utf8Encode (keyPayload d args kwargs)) ∧
    ∀ c ∈ (b64encode (utf8Encode (keyPayload d args kwargs))).data,
      c ≠ Char.ofNat 123 ∧ c ≠ Char.ofNat 125 := by
  constructor
  · unfold CacheDecorator.get_key keyPayload
    cases d.key_serializer <;> rfl
  · intro c hc
    have hmem : c ∈ b64Alphabet ∨ c = '=' := b64encodeBytes_chars _ c hc
    rcases hmem with h | h
    · exact ⟨fun hh => absurd (hh ▸ h) (by decide),
             fun hh => absurd (hh ▸ h) (by decide)⟩
    · subst h
      exact ⟨by decide, by decide⟩

/-- A concrete decorator for the C4 witness. -/
def decC4w : CacheDecorator :=
  ⟨"rc", "ns", compact_dump, none, fun _ => .pnull, 0, 0, fun _ => false,
   fun _ _ => .pnull, ⟨["a"], [], none, none⟩⟩

/-- Witness for C4 at a concrete decorator and call: the key has the
mandated shape and its base64 tail holds neither curly brace. -/
theorem get_key_format_no_braces_witness :
    CacheDecorator.get_key decC4w [.pint 7] [] =
      CacheDecorator.full_pfx decC4w ++ ":" ++
        b64encode (utf8Encode (keyPayload decC4w [.pint 7] [])) ∧
    Char.ofNat 123 ∉ (b64encode (utf8Encode (keyPayload decC4w [.pint 7] []))).data ∧
    Char.ofNat 125 ∉ (b64encode (utf8Encode (keyPayload decC4w [.pint 7] []))).data :=
  ⟨(get_key_format_no_braces decC4w [.pint 7] []).1,
   fun hc => ((get_key_format_no_braces decC4w [.pint 7] []).2 _ hc).1 rfl,
   fun hc => ((get_key_format_no_braces decC4w [.pint 7] []).2 _ hc).2 rfl⟩

/-! ### C5 and C7: the write step and the limit-zero frame -/

/-- C5: step (1) of every store-and-evict execution writes the serialized
value at entry_key — with expiry ttl_seconds when ttl_seconds > 0 and with no
expiry otherwise — and the remainder of the script only ever deletes evicted
entries from that written store (it never rewrites or re-expires the entry). -/
theorem lua_write_expiry_semantics (entry_key keys_key serialized_value : String)
    (ttl limit : Int) (time : Nat) (st : RedisState) :
    alookup (luaWrite entry_key serialized_value ttl st.store) entry_key =
      some ⟨serialized_value, if ttl > 0 then some ttl else none⟩ ∧
    ∃ evicted : List String,
      (cacheLua entry_key keys_key serialized_value ttl limit time st).store =
        delKeys (luaWrite entry_key serialized_value ttl st.store) evicted := by
  constructor
  · by_cases h : ttl > 0 <;> simp [luaWrite, h, alookup_aset_self]
  · by_cases hl : limit > 0
    · by_cases ho :
        ((zadd (getZ st keys_key) entry_key time).length : Int) - limit > 0
      · exact ⟨(zpopmin (zadd (getZ st keys_key) entry_key time)
            (((zadd (getZ st keys_key) entry_key time).length : Int) - limit).toNat).1,
          by simp [cacheLua, hl, ho]⟩
      · exact ⟨[], by simp [cacheLua, hl, ho, delKeys]⟩
    · exact ⟨[], by simp [cacheLua, hl, delKeys]⟩

/-- C7: with size_limit zero the script touches no sorted set at all — the
eviction index is exactly what it was — and the store is exactly the
step-(1) write, so the written entry can only be removed later by expiry or
explicit invalidation. -/
theorem limit_zero_no_index_bookkeeping (entry_key keys_key serialized_value : String)
    (ttl limit : Int) (time : Nat) (st : RedisState) (h : limit = 0) :
    (cacheLua entry_key keys_key serialized_value ttl limit time st).zsets =
      st.zsets ∧
    (cacheLua entry_key keys_key serialized_value ttl limit time st).store =
      luaWrite entry_key serialized_value ttl st.store := by
  subst h
  constructor <;> simp [cacheLua]

/-- Witness for C7 at a concrete execution. -/
theorem limit_zero_no_index_bookkeeping_witness :
    ((0 : Int) = 0) ∧
    ((cacheLua "k" "kk" "v" 5 0 3 emptyState).zsets = emptyState.zsets ∧
     (cacheLua "k" "kk" "v" 5 0 3 emptyState).store =
       luaWrite "k" "v" 5 emptyState.store) :=
  ⟨rfl, limit_zero_no_index_bookkeeping "k" "kk" "v" 5 0 3 emptyState rfl⟩

/-! ### C6: declared fallback errors degrade to an uncached live call -/

/-- C6: when the store read raises an error kind in the caller-declared
fallback set, the decorated call invokes the wrapped function directly,
returns its live result, and performs no store write of any kind (the state
is returned untouched). -/
theorem fallback_exception_live_result_no_write (d : CacheDecorator)
    (args : List PyVal) (kwargs : List (String × PyVal)) (kind : String)
    (time : Nat) (st : RedisState)
    (h : d.fallback_exceptions kind = true) :
    innerCall d (.raise kind) args kwargs time st =
      .ok (d.original_fn args kwargs, st) := by
  simp [innerCall, h]

/-- A decorator that declares ConnectionError as a fallback kind, for the C6
witness. -/
def decC6w : CacheDecorator :=
  ⟨"rc", "ns", fun _ => "SER", none, fun _ => .pnull, 0, 0,
   fun k => k == "ConnectionError", fun _ _ => .pstr "live",
   ⟨[], [], none, none⟩⟩

/-- Witness for C6: a ConnectionError read falls back to the live result and
the (empty) store is untouched. -/
theorem fallback_exception_live_result_no_write_witness :
    (decC6w.fallback_exceptions "ConnectionError" = true) ∧
    innerCall decC6w (.raise "ConnectionError") [] [] 0 emptyState =
      .ok (.pstr "live", emptyState) :=
  ⟨by decide,
   fallback_exception_live_result_no_write decC6w [] [] "ConnectionError" 0
     emptyState (by decide)⟩

/-! ### C3: falsy-but-present payloads -/

/-- C3 (amended): a present non-empty payload — e.g. a serialized "0" — is a
hit: the decorated call returns its deserialization unchanged and performs no
write and no invocation of the wrapped function.  As stated over every
present payload the claim fails: the source's "if not result" test sends a
present empty payload down the miss path (see the counterexample). -/
theorem nonempty_payload_hit (d : CacheDecorator) (args : List PyVal)
    (kwargs : List (String × PyVal)) (time : Nat) (st : RedisState)
    (s : String) (hs : redisGet st (CacheDecorator.get_key d args kwargs) = some s)
    (hne : s ≠ "") :
    innerCall d .success args kwargs time st = .ok (d.deserializer s, st) := by
  simp [innerCall, hs, hne]

/-- A decorator whose wrapped function returns "fresh" while the deserializer
returns "stored", for the C3 theorems. -/
def decC3 : CacheDecorator :=
  ⟨"rc", "ns", fun _ => "SER", none, fun _ => .pstr "stored", 0, 0,
   fun _ => false, fun _ _ => .pstr "fresh", ⟨[], [], none, none⟩⟩

/-- A store holding the payload "0" under decC3's key for the no-argument
call, for the C3 witness. -/
def stC3w : RedisState :=
  ⟨[(CacheDecorator.get_key decC3 [] [], ⟨"0", none⟩)], []⟩

/-- Witness for the amended C3: the falsy-but-present payload "0" is a hit. -/
theorem nonempty_payload_hit_witness :
    (redisGet stC3w (CacheDecorator.get_key decC3 [] []) = some "0") ∧
    ("0" ≠ "") ∧
    innerCall decC3 .success [] [] 0 stC3w =
      .ok (decC3.deserializer "0", stC3w) :=
  ⟨by decide, by decide,
   nonempty_payload_hit decC3 [] [] 0 stC3w "0" (by decide) (by decide)⟩

/-- A store holding a present but empty payload under decC3's key, for the
C3 counterexample. -/
def stC3e : RedisState :=
  ⟨[(CacheDecorator.get_key decC3 [] [], ⟨"", none⟩)], []⟩

/-- C3 is false as stated: the store read returns a present (empty) payload,
yet the source's "if not result" truthiness test treats it as a miss — the
wrapped function runs, its fresh value (not the payload's deserialization) is
returned, and the store is rewritten. -/
theorem empty_payload_treated_as_miss_counterexample :
    redisGet stC3e (CacheDecorator.get_key decC3 [] []) = some "" ∧
    innerCall decC3 .success [] [] 0 stC3e =
      .ok (.pstr "fresh",
           cacheLua (CacheDecorator.get_key decC3 [] [])
             (CacheDecorator.keys_key decC3) "SER" 0 0 0 stC3e) ∧
    decC3.deserializer "" = .pstr "stored" ∧
    (PyVal.pstr "fresh" ≠ PyVal.pstr "stored") ∧
    cacheLua (CacheDecorator.get_key decC3 [] [])
        (CacheDecorator.keys_key decC3) "SER" 0 0 0 stC3e ≠ stC3e :=
  ⟨by decide, rfl, rfl, by simp, by decide⟩

/-! ### C10: a miss returns the live value, not the round trip -/

/-- C10: on a miss the decorated call returns exactly the wrapped function's
value — for every deserializer, so the result is not the
deserialize(serialize(v)) round trip — while storing the serialized value
through the Lua script; and (with no eviction bound configured) a later hit
on the written entry returns the round-tripped value, which differs from the
miss result whenever deserialize(serialize(v)) differs from v. -/
theorem miss_returns_live_value (d : CacheDecorator) (args : List PyVal)
    (kwargs : List (String × PyVal)) (time : Nat) (st : RedisState)
    (h : redisGet st (CacheDecorator.get_key d args kwargs) = none) :
    innerCall d .success args kwargs time st =
      .ok (d.original_fn args kwargs,
           cacheLua (CacheDecorator.get_key d args kwargs)
             (CacheDecorator.keys_key d)
             (d.serializer (d.original_fn args kwargs)) d.ttl d.limit time st) ∧
    (d.limit = 0 → d.serializer (d.original_fn args kwargs) ≠ "" →
      innerCall d .success args kwargs time
          (cacheLua (CacheDecorator.get_key d args kwargs)
            (CacheDecorator.keys_key d)
            (d.serializer (d.original_fn args kwargs)) d.ttl d.limit time st) =
        .ok (d.deserializer (d.serializer (d.original_fn args kwargs)),
             cacheLua (CacheDecorator.get_key d args kwargs)
               (CacheDecorator.keys_key d)
               (d.serializer (d.original_fn args kwargs)) d.ttl d.limit time st)) := by
  constructor
  · simp [innerCall, h]
  · intro hlim hne
    have hstore :
        (cacheLua (CacheDecorator.get_key d args kwargs)
          (CacheDecorator.keys_key d)
          (d.serializer (d.original_fn args kwargs)) d.ttl d.limit time st).store =
          luaWrite (CacheDecorator.get_key d args kwargs)
            (d.serializer (d.original_fn args kwargs)) d.ttl st.store := by
      rw [hlim]; simp [cacheLua]
    have hget :
        redisGet (cacheLua (CacheDecorator.get_key d args kwargs)
            (CacheDecorator.keys_key d)
            (d.serializer (d.original_fn args kwargs)) d.ttl d.limit time st)
          (CacheDecorator.get_key d args kwargs) =
          some (d.serializer (d.original_fn args kwargs)) := by
      rw [redisGet, hstore]
      unfold luaWrite
      by_cases ht : d.ttl > 0 <;> simp [ht, alookup_aset_self]
    simp [innerCall, hget, hne]

/-- A decorator whose serializer/deserializer do not round-trip (everything
serializes to "SER" and deserializes to a string), for the C10 witness. -/
def decC10w : CacheDecorator :=
  ⟨"rc", "ns", fun _ => "SER", none, fun s => .pstr s, 0, 0,
   fun _ => false, fun _ _ => .pint 42, ⟨[], [], none, none⟩⟩

/-- Witness for C10: a miss on the empty store returns the live 42, and the
follow-up hit returns the round-tripped string instead. -/
theorem miss_returns_live_value_witness :
    (redisGet emptyState (CacheDecorator.get_key decC10w [] []) = none) ∧
    innerCall decC10w .success [] [] 0 emptyState =
      .ok (decC10w.original_fn [] [],
           cacheLua (CacheDecorator.get_key decC10w [] [])
             (CacheDecorator.keys_key decC10w)
             (decC10w.serializer (decC10w.original_fn [] [])) decC10w.ttl
             decC10w.limit 0 emptyState) ∧
    innerCall decC10w .success [] [] 0
        (cacheLua (CacheDecorator.get_key decC10w [] [])
          (CacheDecorator.keys_key decC10w)
          (decC10w.serializer (decC10w.original_fn [] [])) decC10w.ttl
          decC10w.limit 0 emptyState) =
      .ok (decC10w.deserializer (decC10w.serializer (decC10w.original_fn [] [])),
           cacheLua (CacheDecorator.get_key decC10w [] [])
             (CacheDecorator.keys_key decC10w)
             (decC10w.serializer (decC10w.original_fn [] [])) decC10w.ttl
             decC10w.limit 0 emptyState) :=
  ⟨by decide,
   (miss_returns_live_value decC10w [] [] 0 emptyState (by decide)).1,
   (miss_returns_live_value decC10w [] [] 0 emptyState (by decide)).2 rfl
     (by decide)⟩

/-! ### C8: mget returns per-request results in request order -/

theorem mgetLoop_map (rc : RedisCache) (g : MgetReq → Option String)
    (reqs : List MgetReq) :
    (mgetLoop rc (reqs.map (fun r => (r, g r)))).1 =
      reqs.map (fun r =>
        match g r with
        | none => r.inst.original_fn r.args r.kwargs
        | some s => rc.deserializer s) := by
  induction reqs with
  | nil => rfl
  | cons r rest ih =>
    cases hg : g r <;> simp [mgetLoop, hg, ih]

theorem zip_map_self {α β : Type} (f : α → β) (l : List α) :
    l.zip (l.map f) = l.map (fun x => (x, f x)) := by
  induction l with
  | nil => rfl
  | cons a rest ih => simp [ih]

/-- C8: mget produces exactly one result per request, in request order: the
i-th result is the deserialized stored payload when the i-th key reads as
present, and the i-th request's freshly computed (not round-tripped) value
when it reads as absent. -/
theorem mget_order_hit_miss (rc : RedisCache) (st : RedisState)
    (reqs : List MgetReq) :
    (RedisCache.mget rc st reqs).1.length = reqs.length ∧
    (RedisCache.mget rc st reqs).1 =
      reqs.map (fun r =>
        match redisGet st (CacheDecorator.get_key r.inst r.args r.kwargs) with
        | none => r.inst.original_fn r.args r.kwargs
        | some s => rc.deserializer s) := by
  have h2 : (RedisCache.mget rc st reqs).1 =
      reqs.map (fun r =>
        match redisGet st (CacheDecorator.get_key r.inst r.args r.kwargs) with
        | none => r.inst.original_fn r.args r.kwargs
        | some s => rc.deserializer s) := by
    show (mgetLoop rc (reqs.zip
        ((reqs.map (fun r => CacheDecorator.get_key r.inst r.args r.kwargs)).map
          (fun k => redisGet st k)))).1 = _
    rw [List.map_map, zip_map_self]
    exact mgetLoop_map rc _ reqs
  exact ⟨by rw [h2]; exact List.length_map _ _, h2⟩

/-! ### C2: the eviction-bound invariant of the Lua script -/

theorem nodup_keys_aset {β : Type} (l : List (String × β)) (k : String) (v : β)
    (h : (l.map Prod.fst).Nodup) : ((aset l k v).map Prod.fst).Nodup := by
  rw [keys_aset]
  by_cases hm : k ∈ l.map Prod.fst
  · simpa [hm] using h
  · simp [hm, List.nodup_append, h]

theorem zmin_mem (z : ZSet) (m : String × Nat) (h : zmin z = some m) : m ∈ z := by
  induction z generalizing m with
  | nil => cases h
  | cons p rest ih =>
    cases hr : zmin rest with
    | none =>
      simp only [zmin, hr] at h
      cases h
      exact List.mem_cons_self _ _
    | some q =>
      simp only [zmin, hr] at h
      by_cases hlt : zLtb q p
      · rw [if_pos hlt] at h
        cases h
        exact List.mem_cons_of_mem _ (ih _ hr)
      · rw [if_neg hlt] at h
        cases h
        exact List.mem_cons_self _ _

theorem zmin_eq_none (z : ZSet) (h : zmin z = none) : z = [] := by
  cases z with
  | nil => rfl
  | cons p rest =>
    cases hr : zmin rest with
    | none =>
      simp only [zmin, hr] at h
      cases h
    | some q =>
      simp only [zmin, hr] at h
      by_cases hlt : zLtb q p
      · rw [if_pos hlt] at h; cases h
      · rw [if_neg hlt] at h; cases h

theorem removeFirstZ_sublist (z : ZSet) (m : String × Nat) :
    List.Sublist (removeFirstZ z m) z := by
  induction z with
  | nil => simp [removeFirstZ]
  | cons p rest ih =>
    by_cases h : p = m
    · simp only [removeFirstZ, if_pos h]
      exact List.sublist_cons_self p rest
    · simp only [removeFirstZ, if_neg h]
      exact ih.cons₂ p

theorem length_removeFirstZ (z : ZSet) (m : String × Nat) (h : m ∈ z) :
    (removeFirstZ z m).length + 1 = z.length := by
  induction z with
  | nil => cases h
  | cons p rest ih =>
    by_cases hp : p = m
    · simp [removeFirstZ, hp]
    · have hm : m ∈ rest := by
        rcases List.mem_cons.mp h with h1 | h2
        · exact absurd h1.symm hp
        · exact h2
      simp [removeFirstZ, hp, ih hm]

theorem removeFirstZ_key_ne (z : ZSet) (m : String × Nat)
    (hnd : (z.map Prod.fst).Nodup) (hm : m ∈ z) :
    ∀ p ∈ removeFirstZ z m, p.1 ≠ m.1 := by
  induction z with
  | nil => intro p hp; cases hp
  | cons q rest ih =>
    intro p hp
    simp only [List.map_cons, List.nodup_cons] at hnd
    by_cases hq : q = m
    · subst hq
      simp only [removeFirstZ, if_pos rfl] at hp
      intro hh
      exact hnd.1 (hh ▸ List.mem_map_of_mem Prod.fst hp)
    · simp only [removeFirstZ, if_neg hq] at hp
      have hm' : m ∈ rest := by
        rcases List.mem_cons.mp hm with h1 | h2
        · exact absurd h1.symm hq
        · exact h2
      rcases List.mem_cons.mp hp with h1 | h2
      · subst h1
        intro hh
        exact hnd.1 (hh ▸ List.mem_map_of_mem Prod.fst hm')
      · exact ih hnd.2 hm' p h2

theorem zpopmin_sublist (n : Nat) : ∀ z : ZSet, List.Sublist (zpopmin z n).2 z := by
  induction n with
  | zero => intro z; exact List.Sublist.refl z
  | succ k ih =>
    intro z
    cases hm : zmin z with
    | none => simp [zpopmin, hm]
    | some m =>
      simp only [zpopmin, hm]
      exact (ih (removeFirstZ z m)).trans (removeFirstZ_sublist z m)

theorem zpopmin_length (n : Nat) : ∀ z : ZSet, n ≤ z.length →
    (zpopmin z n).2.length = z.length - n := by
  induction n with
  | zero => intro z _; simp [zpopmin]
  | succ k ih =>
    intro z h
    cases hm : zmin z with
    | none =>
      have := zmin_eq_none z hm
      subst this
      simp at h
    | some m =>
      have hmem : m ∈ z := zmin_mem z m hm
      have hlen := length_removeFirstZ z m hmem
      simp only [zpopmin, hm]
      rw [ih (removeFirstZ z m) (by omega)]
      omega

theorem zpopmin_rest_not_popped (n : Nat) : ∀ z : ZSet,
    (z.map Prod.fst).Nodup → ∀ p ∈ (zpopmin z n).2, p.1 ∉ (zpopmin z n).1 := by
  induction n with
  | zero => intro z _ p _ h; cases h
  | succ k ih =>
    intro z hnd p hp
    cases hm : zmin z with
    | none => simp [zpopmin, hm]
    | some m =>
      simp only [zpopmin, hm] at hp ⊢
      have hnd' : ((removeFirstZ z m).map Prod.fst).Nodup :=
        hnd.sublist ((removeFirstZ_sublist z m).map Prod.fst)
      intro hmem
      rcases List.mem_cons.mp hmem with h1 | h2
      · have hpr : p ∈ removeFirstZ z m :=
          (zpopmin_sublist k (removeFirstZ z m)).subset hp
        exact removeFirstZ_key_ne z m hnd (zmin_mem z m hm) p hpr h1
      · exact ih (removeFirstZ z m) hnd' p hp h2

theorem getZ_aset_self (store : List (String × StoredVal))
    (zsets : List (String × ZSet)) (kk : String) (z : ZSet) :
    getZ ⟨store, aset zsets kk z⟩ kk = z := by
  simp [getZ, alookup_aset_self]

theorem cacheLua_evict_eq (entry_key keys_key serialized_value : String)
    (ttl limit : Int) (time : Nat) (st : RedisState) (hl : limit > 0)
    (ho : ((zadd (getZ st keys_key) entry_key time).length : Int) - limit > 0) :
    cacheLua entry_key keys_key serialized_value ttl limit time st =
      ⟨delKeys (luaWrite entry_key serialized_value ttl st.store)
         (zpopmin (zadd (getZ st keys_key) entry_key time)
           (((zadd (getZ st keys_key) entry_key time).length : Int) - limit).toNat).1,
       aset st.zsets keys_key
         (zremAll
           (zpopmin (zadd (getZ st keys_key) entry_key time)
             (((zadd (getZ st keys_key) entry_key time).length : Int) - limit).toNat).2
           (zpopmin (zadd (getZ st keys_key) entry_key time)
             (((zadd (getZ st keys_key) entry_key time).length : Int) - limit).toNat).1)⟩ := by
  simp [cacheLua, hl, ho]

theorem cacheLua_noevict_eq (entry_key keys_key serialized_value : String)
    (ttl limit : Int) (time : Nat) (st : RedisState) (hl : limit > 0)
    (ho : ¬(((zadd (getZ st keys_key) entry_key time).length : Int) - limit > 0)) :
    cacheLua entry_key keys_key serialized_value ttl limit time st =
      ⟨luaWrite entry_key serialized_value ttl st.store,
       aset st.zsets keys_key (zadd (getZ st keys_key) entry_key time)⟩ := by
  simp [cacheLua, hl, ho]

/-- The eviction invariant for one namespace index: the index has pairwise
distinct members, holds at most limit of them, and only references keys that
exist as entries in the store. -/
def evictionInv (limit : Int) (keys_key : String) (st : RedisState) : Prop :=
  ((getZ st keys_key).map Prod.fst).Nodup ∧
  (getZ st keys_key).length ≤ limit.toNat ∧
  ∀ p ∈ getZ st keys_key, (alookup st.store p.1).isSome = true

theorem alookup_luaWrite_isSome (entry_key serialized_value : String) (ttl : Int)
    (store : List (String × StoredVal)) (k : String)
    (h : (alookup store k).isSome = true ∨ k = entry_key) :
    (alookup (luaWrite entry_key serialized_value ttl store) k).isSome = true := by
  by_cases hk : k = entry_key
  · subst hk
    unfold luaWrite
    by_cases ht : ttl > 0 <;> simp [ht, alookup_aset_self]
  · have heq : alookup (luaWrite entry_key serialized_value ttl store) k =
        alookup store k := by
      unfold luaWrite
      by_cases ht : ttl > 0 <;> simp [ht, alookup_aset_ne _ _ _ _ hk]
    rw [heq]
    rcases h with h1 | h2
    · exact h1
    · exact absurd h2 hk

theorem evictionInv_cacheLua (limit : Int) (hl : 0 < limit)
    (entry_key keys_key serialized_value : String) (ttl : Int) (time : Nat)
    (st : RedisState) (hinv : evictionInv limit keys_key st) :
    evictionInv limit keys_key
      (cacheLua entry_key keys_key serialized_value ttl limit time st) := by
  obtain ⟨hnd, _, hdang⟩ := hinv
  have hnd1 : ((zadd (getZ st keys_key) entry_key time).map Prod.fst).Nodup :=
    nodup_keys_aset _ _ _ hnd
  have hstore1 : ∀ p : String × Nat, p ∈ zadd (getZ st keys_key) entry_key time →
      (alookup (luaWrite entry_key serialized_value ttl st.store) p.1).isSome
        = true := by
    intro p hp
    rcases mem_aset _ _ _ p hp with h1 | h2
    · exact alookup_luaWrite_isSome _ _ _ _ _ (Or.inr (congrArg Prod.fst h1))
    · exact alookup_luaWrite_isSome _ _ _ _ _ (Or.inl (hdang p h2))
  by_cases ho : ((zadd (getZ st keys_key) entry_key time).length : Int) - limit > 0
  · rw [cacheLua_evict_eq entry_key keys_key serialized_value ttl limit time st hl ho]
    set z1 := zadd (getZ st keys_key) entry_key time with hz1
    set nover := ((z1.length : Int) - limit).toNat with hnover
    have hnover_le : nover ≤ z1.length := by omega
    have hrest_sub : List.Sublist (zpopmin z1 nover).2 z1 := zpopmin_sublist nover z1
    have hrest_len : (zpopmin z1 nover).2.length = z1.length - nover :=
      zpopmin_length nover z1 hnover_le
    have hdisj : ∀ p ∈ (zpopmin z1 nover).2, p.1 ∉ (zpopmin z1 nover).1 :=
      zpopmin_rest_not_popped nover z1 hnd1
    have hz2_sub : List.Sublist (zremAll (zpopmin z1 nover).2 (zpopmin z1 nover).1)
        (zpopmin z1 nover).2 := List.filter_sublist _
    refine ⟨?_, ?_, ?_⟩
    · rw [getZ_aset_self]
      exact hnd1.sublist ((hz2_sub.trans hrest_sub).map Prod.fst)
    · rw [getZ_aset_self]
      have hle : (zremAll (zpopmin z1 nover).2 (zpopmin z1 nover).1).length ≤
          (zpopmin z1 nover).2.length := hz2_sub.length_le
      omega
    · rw [getZ_aset_self]
      intro p hp
      have hp2 : p ∈ (zpopmin z1 nover).2 := hz2_sub.subset hp
      have hp1 : p ∈ z1 := hrest_sub.subset hp2
      have hnm : p.1 ∉ (zpopmin z1 nover).1 := hdisj p hp2
      show (alookup (delKeys (luaWrite entry_key serialized_value ttl st.store)
        (zpopmin z1 nover).1) p.1).isSome = true
      rw [alookup_delKeys_not_mem _ _ _ hnm]
      exact hstore1 p hp1
  · rw [cacheLua_noevict_eq entry_key keys_key serialized_value ttl limit time st hl ho]
    refine ⟨?_, ?_, ?_⟩
    · rw [getZ_aset_self]
      exact hnd1
    · rw [getZ_aset_self]
      omega
    · rw [getZ_aset_self]
      intro p hp
      exact hstore1 p hp

/-- One execution of the store-and-evict script in a sequence under a fixed
namespace: the entry key, serialized value, ttl, and server time of the call. -/
structure LuaCall where
  entry_key : String
  value : String
  ttl : Int
  time : Nat

/-- A sequence of store-and-evict executions under one namespace index and
one size limit. -/
def runCalls (keys_key : String) (limit : Int) (st : RedisState)
    (calls : List LuaCall) : RedisState :=
  calls.foldl
    (fun s c => cacheLua c.entry_key keys_key c.value c.ttl limit c.time s) st

theorem evictionInv_runCalls (limit : Int) (hl : 0 < limit) (keys_key : String)
    (calls : List LuaCall) :
    ∀ st : RedisState, evictionInv limit keys_key st →
      evictionInv limit keys_key (runCalls keys_key limit st calls) := by
  induction calls with
  | nil => intro st h; exact h
  | cons c rest ih =>
    intro st h
    exact ih _ (evictionInv_cacheLua limit hl c.entry_key keys_key c.value
      c.ttl c.time st h)

theorem evictionInv_empty (limit : Int) (keys_key : String) :
    evictionInv limit keys_key emptyState := by
  refine ⟨?_, ?_, ?_⟩ <;> simp [getZ, emptyState, alookup]

/-- C2: after each completed execution of any sequence of store-and-evict
calls under one namespace with size limit L > 0, the namespace eviction index
holds at most L members, and every key the index references exists as an
entry in the store. -/
theorem cache_lua_eviction_bound (keys_key : String) (limit : Int)
    (hl : 0 < limit) (calls : List LuaCall) (n : Nat) :
    (getZ (runCalls keys_key limit emptyState (calls.take n)) keys_key).length ≤
      limit.toNat ∧
    ∀ p ∈ getZ (runCalls keys_key limit emptyState (calls.take n)) keys_key,
      (alookup (runCalls keys_key limit emptyState (calls.take n)).store
        p.1).isSome = true := by
  have h := evictionInv_runCalls limit hl keys_key (calls.take n) emptyState
    (evictionInv_empty limit keys_key)
  exact ⟨h.2.1, h.2.2⟩

/-- Three store-and-evict calls for the C2 witness. -/
def callsC2w : List LuaCall :=
  [⟨"k1", "v1", 0, 1⟩, ⟨"k2", "v2", 0, 2⟩, ⟨"k3", "v3", 0, 3⟩]

/-- Witness for C2: three inserts under limit 2 leave at most 2 members. -/
theorem cache_lua_eviction_bound_witness :
    ((0 : Int) < 2) ∧
    (getZ (runCalls "idx" 2 emptyState (callsC2w.take 3)) "idx").length ≤
      (2 : Int).toNat :=
  ⟨by decide, (cache_lua_eviction_bound "idx" 2 (by decide) callsC2w 3).1⟩
